import Mathlib

set_option allowUnsafeReducibility true

attribute [local semireducible] Rat.mul Rat.add Rat.div Rat.inv

/-!
# Verification of the orca-cli Docker publish-and-deploy pipeline

Shallow embedding of the docker-helper module (`dockerLogin`, `dockerPush`,
`convertToBytes`, `pushImageToECR`) and of the `lambdaDeploy` orchestrator
(`src/src/commands/lambda.js`), faithful to the JavaScript source.

Strings are modelled as `List Char` (JS strings); JS numbers arising from
`parseFloat` are modelled as `Option ℚ` where `none` stands for `NaN`
(`parseFloat` on a `[\d.]+` token either yields a non-negative decimal or
`NaN`).  `Math.round` is `⌊q + 1/2⌋`, which agrees with JS rounding
(half-up, toward +∞).
-/

namespace OrcaCli

abbrev Str := List Char

/-- Character list of a string literal. -/
def str (s : String) : Str := s.data

/-! ## Character classes of the three JS regexes in `dockerPush` -/

/-- `[a-f0-9]` — one hex digit as used in docker layer ids. -/
def isHexLower (c : Char) : Bool := c.isDigit || ('a' ≤ c && c ≤ 'f')

/-- JS `\s` restricted to the ASCII whitespace characters (sufficient here:
lines have already been split on `'\n'` and the counterexamples/witnesses
below use plain spaces). -/
def isJsSpace (c : Char) : Bool :=
  c = ' ' || c = '\t' || c = '\n' || c = '\r' || c = '\x0b' || c = '\x0c'

/-- `[\d.]` — digit or dot, the size tokens of a `Pushing` line. -/
def isDigitDot (c : Char) : Bool := c.isDigit || c = '.'

/-- `[=>\s]` — the characters of the progress bar. -/
def isBarChar (c : Char) : Bool := c = '=' || c = '>' || isJsSpace c

/-! ## Deterministic matching primitives

Each regex in the source has the shape "character-class run, then a literal
whose first character is outside the class", so greedy matching needs no
backtracking inside the pattern; the only search is over start positions
(leftmost match, as JS `String.match` without `/g`). -/

/-- Take exactly `n` characters satisfying `isHexLower`. -/
def takeHexN : Nat → Str → Option (Str × Str)
  | 0, rest => some ([], rest)
  | _ + 1, [] => none
  | n + 1, c :: cs =>
      if isHexLower c then (takeHexN n cs).map (fun p => (c :: p.1, p.2)) else none

/-- Consume one expected character. -/
def expectChar (c : Char) : Str → Option Str
  | d :: cs => if d = c then some cs else none
  | [] => none

/-- Consume a nonempty maximal run of characters satisfying `p` (greedy `X+`). -/
def takeWhile1 (p : Char → Bool) : Str → Option (Str × Str)
  | c :: rest =>
      if p c then some (c :: rest.takeWhile p, rest.dropWhile p) else none
  | [] => none

/-- Consume a literal string. -/
def expectLit : Str → Str → Option Str
  | [], cs => some cs
  | _ :: _, [] => none
  | l :: ls, c :: cs => if c = l then expectLit ls cs else none

/-- Try a pattern at every start position, leftmost match first
(the patterns below all need at least one character, so the empty
suffix never matches). -/
def searchPos (f : Str → Option α) : Str → Option α
  | [] => none
  | c :: cs =>
      match f (c :: cs) with
      | some a => some a
      | none => searchPos f cs

/-! ## The three line patterns of `dockerPush` -/

/-- `/([a-f0-9]{12}):\s+(Preparing|Waiting|Layer already exists)/` tried at
one position; returns the captured layer id. -/
def prepAt (cs : Str) : Option Str := do
  let (id12, r1) ← takeHexN 12 cs
  let r2 ← expectChar ':' r1
  let (_, r3) ← takeWhile1 isJsSpace r2
  if (expectLit (str "Preparing") r3).isSome then some id12
  else if (expectLit (str "Waiting") r3).isSome then some id12
  else if (expectLit (str "Layer already exists") r3).isSome then some id12
  else none

/-- `[KMG]B` — a size unit of a `Pushing` line. -/
def takeUnit : Str → Option (Str × Str)
  | c :: 'B' :: rest =>
      if c = 'K' || c = 'M' || c = 'G' then some ([c, 'B'], rest) else none
  | _ => none

/-- The captures of the `Pushing` regex: layer id, current-size token,
current unit, total-size token, total unit. -/
structure PushingMatch where
  layerId : Str
  curTok : Str
  curUnit : Str
  totTok : Str
  totUnit : Str
deriving DecidableEq

/-- `/([a-f0-9]{12}):\s+Pushing\s+\[([=>\s]+)\]\s+([\d.]+)([KMG]B)\/([\d.]+)([KMG]B)/`
tried at one position. -/
def pushingAt (cs : Str) : Option PushingMatch := do
  let (id12, r1) ← takeHexN 12 cs
  let r2 ← expectChar ':' r1
  let (_, r3) ← takeWhile1 isJsSpace r2
  let r4 ← expectLit (str "Pushing") r3
  let (_, r5) ← takeWhile1 isJsSpace r4
  let r6 ← expectChar '[' r5
  let (_, r7) ← takeWhile1 isBarChar r6
  let r8 ← expectChar ']' r7
  let (_, r9) ← takeWhile1 isJsSpace r8
  let (curS, r10) ← takeWhile1 isDigitDot r9
  let (curU, r11) ← takeUnit r10
  let r12 ← expectChar '/' r11
  let (totS, r13) ← takeWhile1 isDigitDot r12
  let (totU, _) ← takeUnit r13
  some ⟨id12, curS, curU, totS, totU⟩

/-- `/([a-f0-9]{12}):\s+(Pushed|Layer already exists)/` tried at one
position; returns the captured layer id (the source also captures which
alternative matched, but never uses it). -/
def pushedAt (cs : Str) : Option Str := do
  let (id12, r1) ← takeHexN 12 cs
  let r2 ← expectChar ':' r1
  let (_, r3) ← takeWhile1 isJsSpace r2
  if (expectLit (str "Pushed") r3).isSome then some id12
  else if (expectLit (str "Layer already exists") r3).isSome then some id12
  else none

/-! ## `parseFloat` and `convertToBytes` -/

/-- Decimal value of a digit run. -/
def digitsToNat (cs : Str) : ℕ :=
  cs.foldl (fun n c => 10 * n + (c.toNat - '0'.toNat)) 0

/-- Value of a fraction-digit run `ds` standing after a decimal point. -/
def fracVal (ds : Str) : ℚ := (digitsToNat ds : ℚ) / ((10 : ℚ) ^ ds.length)

/-- JS `parseFloat` restricted to `[\d.]+` tokens: longest valid decimal
prefix, `none` for `NaN` (e.g. on `"."`). -/
def parseFloatQ (cs : Str) : Option ℚ :=
  match cs.takeWhile Char.isDigit, cs.drop (cs.takeWhile Char.isDigit).length with
  | [], '.' :: rest2 =>
      if rest2.takeWhile Char.isDigit = [] then none
      else some (fracVal (rest2.takeWhile Char.isDigit))
  | [], _ => none
  | _ :: _, '.' :: rest2 =>
      some ((digitsToNat (cs.takeWhile Char.isDigit) : ℚ) + fracVal (rest2.takeWhile Char.isDigit))
  | _ :: _, _ => some (digitsToNat (cs.takeWhile Char.isDigit) : ℚ)

/-- The unit table of `convertToBytes` (`units[unit] || 1`). -/
def unitMult (u : Str) : ℚ :=
  if u = str "B" then 1
  else if u = str "KB" then 1024
  else if u = str "MB" then 1024 * 1024
  else if u = str "GB" then 1024 * 1024 * 1024
  else 1

/-- `convertToBytes(size, unit)`; `NaN * m = NaN`. -/
def convertToBytes (size : Option ℚ) (u : Str) : Option ℚ :=
  size.map (fun q => q * unitMult u)

/-- Current size of a `Pushing` match, in bytes. -/
def curBytes (m : PushingMatch) : Option ℚ := convertToBytes (parseFloatQ m.curTok) m.curUnit

/-- Total size of a `Pushing` match, in bytes. -/
def totBytes (m : PushingMatch) : Option ℚ := convertToBytes (parseFloatQ m.totTok) m.totUnit

/-! ## The push session state (`layers`, `totalLayers`, `completedLayers`) -/

/-- One entry of the `layers` object of `dockerPush`. -/
structure LayerProgress where
  total : Option ℚ
  current : Option ℚ
  completed : Bool
  status : Str
deriving DecidableEq

/-- The mutable state of one `dockerPush` call.  The JS `layers` object is
an insertion-ordered association list (all keys are 12-character layer ids,
so JS integer-key reordering never applies). -/
structure PushState where
  layers : List (Str × LayerProgress)
  totalLayers : ℕ
  completedLayers : ℕ
deriving DecidableEq

def initialPushState : PushState := ⟨[], 0, 0⟩

/-- `layers[layerId]` lookup. -/
def getLayer : List (Str × LayerProgress) → Str → Option LayerProgress
  | [], _ => none
  | (k', v) :: rest, k => if k' = k then some v else getLayer rest k

/-- `layers[layerId] = v`: update in place, or append a new key. -/
def setLayer : List (Str × LayerProgress) → Str → LayerProgress → List (Str × LayerProgress)
  | [], k, v => [(k, v)]
  | (k', v') :: rest, k, v =>
      if k' = k then (k, v) :: rest else (k', v') :: setLayer rest k v

/-- JS `layer.total > 0` (false for `NaN`). -/
def totGt0 : Option ℚ → Bool
  | none => false
  | some q => decide (0 < q)

/-- JS `layer.current || 0` (`NaN` is falsy). -/
def orZero : Option ℚ → ℚ
  | none => 0
  | some q => q

/-- The `Preparing|Waiting|Layer already exists` branch of the line handler.
The source guards it with `!initialScanDone`, but `initialScanDone` is
initialized to `false` and never assigned, so the guard is always open. -/
def stepPreparing (s : PushState) (line : Str) : PushState :=
  match searchPos prepAt line with
  | none => s
  | some id12 =>
      match getLayer s.layers id12 with
      | some _ => s
      | none =>
          { s with
            layers := setLayer s.layers id12 ⟨some 0, some 0, false, str "preparing"⟩
            totalLayers := s.totalLayers + 1 }

/-- The `Pushing [..] cur/total` branch: create or overwrite `total`,
`current` and `status` (the `completed` flag is not touched on update). -/
def stepPushing (s : PushState) (line : Str) : PushState :=
  match searchPos pushingAt line with
  | none => s
  | some m =>
      match getLayer s.layers m.layerId with
      | none =>
          { s with
            layers := setLayer s.layers m.layerId ⟨totBytes m, curBytes m, false, str "pushing"⟩
            totalLayers := s.totalLayers + 1 }
      | some l =>
          { s with
            layers := setLayer s.layers m.layerId ⟨totBytes m, curBytes m, l.completed, str "pushing"⟩ }

/-- The `Pushed|Layer already exists` terminal branch. -/
def stepPushed (s : PushState) (line : Str) : PushState :=
  match searchPos pushedAt line with
  | none => s
  | some id12 =>
      match getLayer s.layers id12 with
      | none =>
          { s with
            layers := setLayer s.layers id12 ⟨some 0, some 0, true, str "complete"⟩
            totalLayers := s.totalLayers + 1
            completedLayers := s.completedLayers + 1 }
      | some l =>
          if l.completed then s
          else
            { s with
              layers := setLayer s.layers id12
                ⟨l.total, if totGt0 l.total then l.total else l.current, true, str "complete"⟩
              completedLayers := s.completedLayers + 1 }

/-- One iteration of `lines.forEach`: the three pattern branches in source
order (a line may match several, e.g. `Layer already exists`). -/
def stepLine (s : PushState) (line : Str) : PushState :=
  stepPushed (stepPushing (stepPreparing s line) line) line

/-! ## Aggregate progress -/

/-- The `(totalBytes, uploadedBytes)` accumulation over `Object.values(layers)`
restricted to layers with `total > 0`. -/
def sums (s : PushState) : ℚ × ℚ :=
  s.layers.foldl
    (fun acc kv =>
      if totGt0 kv.2.total then (acc.1 + orZero kv.2.total, acc.2 + orZero kv.2.current) else acc)
    (0, 0)

/-- JS `Math.round` on the (always non-NaN) percent value: half-up. -/
def jsRound (q : ℚ) : ℤ := ⌊q + 1 / 2⌋

/-- `overallPercent` as computed after a line, for a state with
`totalLayers > 0`. -/
def computePercent (s : PushState) : ℤ :=
  if 0 < (sums s).1 then jsRound ((sums s).2 / (sums s).1 * 100)
  else if 0 < s.totalLayers then
    jsRound ((s.completedLayers : ℚ) / (s.totalLayers : ℚ) * 100)
  else 0

/-- A progress event `(overallPercent, completedLayers, totalLayers)`. -/
abbrev ProgressEvent := ℤ × ℕ × ℕ

/-- The event emitted after one line (`if (totalLayers > 0 && onProgress)`). -/
def lineEmit (s : PushState) : List ProgressEvent :=
  if 0 < s.totalLayers then [(computePercent s, s.completedLayers, s.totalLayers)] else []

/-! ## Chunk handling: `data.toString().split('\n')` -/

/-- JS `String.split('\n')` (so `""` splits to `[""]`). -/
def splitLines : Str → List Str
  | [] => [[]]
  | c :: cs =>
      if c = '\n' then [] :: splitLines cs
      else
        match splitLines cs with
        | l :: ls => (c :: l) :: ls
        | [] => [[c]]

/-- State after a list of lines. -/
def runLines (s : PushState) (ls : List Str) : PushState := ls.foldl stepLine s

/-- Events emitted while processing a list of lines. -/
def traceLines (s : PushState) : List Str → List ProgressEvent
  | [] => []
  | l :: ls => lineEmit (stepLine s l) ++ traceLines (stepLine s l) ls

/-- State after one stdout chunk. -/
def runChunk (s : PushState) (chunk : Str) : PushState := runLines s (splitLines chunk)

/-- State after a list of stdout chunks. -/
def runChunks (s : PushState) (chunks : List Str) : PushState := chunks.foldl runChunk s

/-- Events emitted over a list of stdout chunks. -/
def traceChunks (s : PushState) : List Str → List ProgressEvent
  | [] => []
  | c :: cs => traceLines s (splitLines c) ++ traceChunks (runChunk s c) cs

/-! ## `dockerPush` stderr capture and completion -/

/-- JS `toLowerCase` on the chunk (ASCII lowering). -/
def toLowerStr (cs : Str) : Str := cs.map Char.toLower

/-- `b` matches at the head of the second argument. -/
def prefixMatch : Str → Str → Bool
  | [], _ => true
  | _ :: _, [] => false
  | a :: as, b :: bs => a = b && prefixMatch as bs

/-- `hay.includes(pat)` — contiguous substring test. -/
def containsSub (pat : Str) : Str → Bool
  | [] => prefixMatch pat []
  | c :: t => prefixMatch pat (c :: t) || containsSub pat t

/-- The stderr filter of `dockerPush`: flags a chunk whose lowercase form
contains `error`, `denied` or `unauthorized`. -/
def hasErrorText (chunk : Str) : Bool :=
  containsSub (str "error") (toLowerStr chunk) ||
  containsSub (str "denied") (toLowerStr chunk) ||
  containsSub (str "unauthorized") (toLowerStr chunk)

/-- Accumulation of `hasError` / `errorMessage` over the stderr chunks. -/
def errorCapture (chunks : List Str) : Bool × Str :=
  chunks.foldl (fun acc ch => if hasErrorText ch then (true, acc.2 ++ ch) else acc) (false, [])

/-- Settled value of the `dockerPush` promise. -/
inductive PushResult where
  | ok : PushResult
  | err : Str → PushResult
deriving DecidableEq

/-- One observed run of the push subprocess: its stdout chunks, stderr
chunks, and exit code.  (stderr chunks never touch the layer state, so
their interleaving with stdout is irrelevant to the final state.) -/
structure PushRun where
  stdoutChunks : List Str
  stderrChunks : List Str
  exitCode : ℤ

/-- `dockerPush`: the settled result together with the full sequence of
`onProgress` events, including the forced terminal `(100, total, total)`
emitted in the `close` handler on exit code 0 when `totalLayers > 0`. -/
def dockerPushModel (r : PushRun) : PushResult × List ProgressEvent :=
  let sFinal := runChunks initialPushState r.stdoutChunks
  let evs := traceChunks initialPushState r.stdoutChunks
  let cap := errorCapture r.stderrChunks
  if r.exitCode = 0 then
    (PushResult.ok,
     evs ++ (if 0 < sFinal.totalLayers then [(100, sFinal.totalLayers, sFinal.totalLayers)] else []))
  else
    (PushResult.err
      (if cap.1 && !(cap.2 = []) then str "Push failed: " ++ cap.2
       else str "Failed to push image to registry"),
     evs)

/-! ## `dockerLogin` retry loop -/

/-- `TIMEOUT_MS` of `dockerLogin`. -/
def TIMEOUT_MS : ℕ := 60000

/-- How one login attempt settles: the subprocess closes with code 0
(stdout output resolved), closes with a nonzero code (stderr captured),
the 60-second timer fires first (process killed, rejection), or the spawn
itself errors. -/
inductive AttemptOutcome where
  | success : Str → AttemptOutcome
  | failure : Str → AttemptOutcome
  | timedOut : AttemptOutcome
  | spawnErr : Str → AttemptOutcome
deriving DecidableEq

/-- The rejection message of a failed attempt, `none` when it resolves. -/
def attemptError : AttemptOutcome → Option Str
  | .success _ => none
  | .failure errOut => some (str "Docker login failed: " ++ errOut)
  | .timedOut => some (str "Docker login timed out after " ++ str (toString (TIMEOUT_MS / 1000)) ++ str " seconds")
  | .spawnErr m => some m

/-- The resolved stdout of a successful attempt. -/
def attemptOutput : AttemptOutcome → Str
  | .success out => out
  | _ => []

/-- `Math.min(1000 * Math.pow(2, attempt - 1), 5000)`. -/
def backoffDelay (attempt : ℕ) : ℕ := min (1000 * 2 ^ (attempt - 1)) 5000

deriving instance DecidableEq for Except

/-- Result of the whole retry loop: how many attempts ran, the backoff
waits performed between them, and the final settlement. -/
structure LoginResult where
  attemptsMade : ℕ
  delays : List ℕ
  result : Except Str Str
deriving DecidableEq

/-- The `for (attempt = 1; attempt <= retries; attempt++)` loop of
`dockerLogin`, driven by the outcome of each attempt; recursion on the
number of attempts still allowed.  (With `retries = 0` the loop body never
runs and the function returns `undefined`; modelled as an empty error.) -/
def loginAux (outcomes : ℕ → AttemptOutcome) (attempt : ℕ) : ℕ → LoginResult
  | 0 => ⟨0, [], .error []⟩
  | 1 =>
      match attemptError (outcomes attempt) with
      | none => ⟨1, [], .ok (attemptOutput (outcomes attempt))⟩
      | some e => ⟨1, [], .error e⟩
  | n + 2 =>
      match attemptError (outcomes attempt) with
      | none => ⟨1, [], .ok (attemptOutput (outcomes attempt))⟩
      | some _ =>
          let r := loginAux outcomes (attempt + 1) (n + 1)
          ⟨r.attemptsMade + 1, backoffDelay attempt :: r.delays, r.result⟩

/-- `dockerLogin(registry, username, password, retries)` with the attempt
outcomes supplied by the environment. -/
def dockerLoginModel (outcomes : ℕ → AttemptOutcome) (retries : ℕ) : LoginResult :=
  loginAux outcomes 1 retries

/-! ## The stall watchdog of `dockerPush`

A discrete-event model of the `setInterval` timer: time is a natural
number of milliseconds, the events are output arrivals (either channel
updates `lastOutput`), interval ticks, and the process `close`.
`clearInterval` is the `intervalActive` flag; `pushProcess.kill()` is the
`killed` flag; settling the promise is the `outcome` field (a settled
promise ignores later settlements). -/

def STALL_WINDOW_MS : ℕ := 600000

def stallTimeoutMsg : Str := str "Push timed out - no output for 10 minutes"

inductive WatchOutcome where
  | stalled : WatchOutcome
  | exitResolved : ℤ → WatchOutcome
deriving DecidableEq

/-- The rejection message attached to a watchdog outcome, when one is a
stall rejection. -/
def watchMsg : WatchOutcome → Option Str
  | .stalled => some stallTimeoutMsg
  | .exitResolved _ => none

inductive PushEvent where
  | out : ℕ → PushEvent
  | tick : ℕ → PushEvent
  | exited : ℤ → ℕ → PushEvent
deriving DecidableEq

structure WatchState where
  lastOutput : ℕ
  intervalActive : Bool
  killed : Bool
  outcome : Option WatchOutcome
deriving DecidableEq

/-- One event against the watchdog: output handlers refresh `lastOutput`;
a tick with more than `STALL_WINDOW_MS` of silence clears the interval,
kills the process and rejects; `close` clears the interval and settles. -/
def stepWatch (s : WatchState) : PushEvent → WatchState
  | .out t => { s with lastOutput := t }
  | .tick t =>
      if s.intervalActive && decide (STALL_WINDOW_MS < t - s.lastOutput) then
        { s with intervalActive := false, killed := true
                 outcome := if s.outcome = none then some .stalled else s.outcome }
      else s
  | .exited code _ =>
      { s with intervalActive := false
               outcome := if s.outcome = none then some (.exitResolved code) else s.outcome }

def foldWatch (s : WatchState) (evs : List PushEvent) : WatchState := evs.foldl stepWatch s

/-- Watchdog state at the start of a push (`lastOutput = Date.now()`). -/
def initialWatch (t0 : ℕ) : WatchState := ⟨t0, true, false, none⟩

/-- An event is a `close` event. -/
def isExitEvent : PushEvent → Bool
  | .exited _ _ => true
  | _ => false

/-! ## The `lambdaDeploy` orchestrator (`src/src/commands/lambda.js`) -/

/-- The credentials response body; JS fields may be absent (`none`) or any
string, and `!x` is true for an absent or empty field. -/
structure CredsResponse where
  ecr_url : Option Str
  ecr_username : Option Str
  ecr_password : Option Str
  repository_uri : Option Str
  deployment_id : Option Str

/-- JS truthiness of an optional string field. -/
def truthyStr : Option Str → Bool
  | none => false
  | some [] => false
  | some (_ :: _) => true

/-- The externally observable actions of one deploy invocation, in order. -/
inductive DeployAction where
  | checkDocker
  | checkImage
  | requestCreds
  | loginStep
  | tagStep
  | pushStep
  | confirmStep
deriving DecidableEq

/-- The collaborators' behavior for one deploy invocation: whether the
Docker probe and local-image check succeed, the credentials-endpoint
result (`none` = the request rejected), the registry-login attempt
outcomes, the tag result, the push subprocess run, and the confirm
endpoint result. -/
structure DeployEnv where
  dockerInstalled : Bool
  imageExists : Bool
  credsResponse : Option CredsResponse
  loginOutcomes : ℕ → AttemptOutcome
  tagOk : Bool
  pushRun : PushRun
  confirmOk : Bool

/-- Exit code and action trace of one deploy invocation. -/
structure DeployOutcome where
  exitCode : ℕ
  actions : List DeployAction

/-- `lambdaDeploy` after authentication and flag validation: step 1 probes
Docker, step 2 checks the local image (either failure exits 1 with no
network call), step 3 requests credentials and aborts on a rejected call
or on a response missing `ecr_url`/`repository_uri`; then
`pushImageToECR` runs login (3 retries) → tag → push, any failure
propagating to the outer catch (exit 1); finally the confirm endpoint is
called.  Console formatting, `getImageSize` (whose value is only
printed), and the response-URL printing are omitted. -/
def deployModel (env : DeployEnv) : DeployOutcome :=
  if !env.dockerInstalled then ⟨1, [.checkDocker]⟩
  else if !env.imageExists then ⟨1, [.checkDocker, .checkImage]⟩
  else
    match env.credsResponse with
    | none => ⟨1, [.checkDocker, .checkImage, .requestCreds]⟩
    | some cr =>
        if !(truthyStr cr.ecr_url && truthyStr cr.repository_uri) then
          ⟨1, [.checkDocker, .checkImage, .requestCreds]⟩
        else
          match (dockerLoginModel env.loginOutcomes 3).result with
          | .error _ => ⟨1, [.checkDocker, .checkImage, .requestCreds, .loginStep]⟩
          | .ok _ =>
              if !env.tagOk then
                ⟨1, [.checkDocker, .checkImage, .requestCreds, .loginStep, .tagStep]⟩
              else
                match (dockerPushModel env.pushRun).1 with
                | .err _ =>
                    ⟨1, [.checkDocker, .checkImage, .requestCreds, .loginStep, .tagStep, .pushStep]⟩
                | .ok =>
                    ⟨if env.confirmOk then 0 else 1,
                     [.checkDocker, .checkImage, .requestCreds, .loginStep, .tagStep,
                      .pushStep, .confirmStep]⟩

/-! ## Helper lemmas: the layer map -/

/-- Number of completed layers in a layer map. -/
def countCompleted (ls : List (Str × LayerProgress)) : ℕ :=
  (ls.filter (fun kv => kv.2.completed)).length

theorem getLayer_none_setLayer {ls : List (Str × LayerProgress)} {k : Str} (v : LayerProgress)
    (h : getLayer ls k = none) : setLayer ls k v = ls ++ [(k, v)] := by
  induction ls with
  | nil => rfl
  | cons kv rest ih =>
      obtain ⟨k', v'⟩ := kv
      by_cases hk : k' = k
      · simp [getLayer, hk] at h
      · simp only [getLayer, hk, if_false] at h
        simp [setLayer, hk, ih h]

theorem getLayer_setLayer_self (ls : List (Str × LayerProgress)) (k : Str) (v : LayerProgress) :
    getLayer (setLayer ls k v) k = some v := by
  induction ls with
  | nil => simp [setLayer, getLayer]
  | cons kv rest ih =>
      obtain ⟨k', v'⟩ := kv
      by_cases hk : k' = k
      · simp [setLayer, hk, getLayer]
      · simp [setLayer, hk, getLayer, ih]

theorem getLayer_setLayer_ne (ls : List (Str × LayerProgress)) {k k' : Str} (v : LayerProgress)
    (h : k' ≠ k) : getLayer (setLayer ls k v) k' = getLayer ls k' := by
  have hk' : ¬(k = k') := fun hh => h (Eq.symm hh)
  induction ls with
  | nil => simp [setLayer, getLayer, hk']
  | cons kv rest ih =>
      obtain ⟨k₀, v₀⟩ := kv
      by_cases hk : k₀ = k
      · subst hk
        simp [setLayer, getLayer, hk']
      · simp only [setLayer, hk, if_false]
        by_cases h0 : k₀ = k'
        · simp [getLayer, h0]
        · simp [getLayer, h0, ih]

theorem length_setLayer_some {ls : List (Str × LayerProgress)} {k : Str} {l0 : LayerProgress}
    (v : LayerProgress) (h : getLayer ls k = some l0) :
    (setLayer ls k v).length = ls.length := by
  induction ls with
  | nil => simp [getLayer] at h
  | cons kv rest ih =>
      obtain ⟨k', v'⟩ := kv
      by_cases hk : k' = k
      · simp [setLayer, hk]
      · simp only [getLayer, hk, if_false] at h
        simp [setLayer, hk, ih h]

theorem countCompleted_append (ls : List (Str × LayerProgress)) (k : Str) (v : LayerProgress) :
    countCompleted (ls ++ [(k, v)]) = countCompleted ls + (if v.completed then 1 else 0) := by
  simp only [countCompleted, List.filter_append]
  by_cases hv : v.completed
  · simp [hv]
  · simp [hv]

theorem countCompleted_cons (k : Str) (v : LayerProgress) (ls : List (Str × LayerProgress)) :
    countCompleted ((k, v) :: ls) = (if v.completed then 1 else 0) + countCompleted ls := by
  by_cases hv : v.completed <;>
    simp [countCompleted, List.filter_cons, hv, Nat.add_comm]

theorem countCompleted_setLayer_some {ls : List (Str × LayerProgress)} {k : Str}
    {l0 : LayerProgress} (v : LayerProgress) (h : getLayer ls k = some l0) :
    countCompleted (setLayer ls k v) + (if l0.completed then 1 else 0) =
      countCompleted ls + (if v.completed then 1 else 0) := by
  induction ls with
  | nil => simp [getLayer] at h
  | cons kv rest ih =>
      obtain ⟨k', v'⟩ := kv
      by_cases hk : k' = k
      · simp only [getLayer, hk, if_true] at h
        have hv' : v' = l0 := by injection h
        subst hv'
        simp only [setLayer, hk, if_true]
        rw [countCompleted_cons, countCompleted_cons]
        omega
      · simp only [getLayer, hk, if_false] at h
        simp only [setLayer, hk, if_false]
        rw [countCompleted_cons, countCompleted_cons]
        have := ih h
        omega

theorem mem_setLayer {ls : List (Str × LayerProgress)} {k : Str} {v : LayerProgress}
    {kv : Str × LayerProgress} (h : kv ∈ setLayer ls k v) : kv = (k, v) ∨ kv ∈ ls := by
  induction ls with
  | nil => simpa [setLayer] using h
  | cons kv₀ rest ih =>
      obtain ⟨k', v'⟩ := kv₀
      by_cases hk : k' = k
      · simp only [setLayer, hk, if_true] at h
        rw [List.mem_cons] at h
        rcases h with h | h
        · exact Or.inl h
        · exact Or.inr (List.mem_cons_of_mem _ h)
      · simp only [setLayer, hk, if_false] at h
        rw [List.mem_cons] at h
        rcases h with h | h
        · exact Or.inr (by simp [h])
        · rcases ih h with h' | h'
          · exact Or.inl h'
          · exact Or.inr (List.mem_cons_of_mem _ h')

theorem getLayer_isSome_setLayer (ls : List (Str × LayerProgress)) (k k' : Str)
    (v : LayerProgress) (h : (getLayer ls k').isSome) :
    (getLayer (setLayer ls k v) k').isSome := by
  by_cases hk : k' = k
  · subst hk
    simp [getLayer_setLayer_self]
  · rw [getLayer_setLayer_ne ls v hk]
    exact h

theorem getLayer_mem {ls : List (Str × LayerProgress)} {k : Str} {l0 : LayerProgress}
    (h : getLayer ls k = some l0) : (k, l0) ∈ ls := by
  induction ls with
  | nil => simp [getLayer] at h
  | cons kv rest ih =>
      obtain ⟨k', v'⟩ := kv
      by_cases hk : k' = k
      · subst hk
        simp only [getLayer, if_true] at h
        have hv : v' = l0 := by injection h
        subst hv
        exact List.mem_cons_self _ _
      · simp only [getLayer, hk, if_false] at h
        exact List.mem_cons_of_mem _ (ih h)

/-! ## Invariants of the push session -/

/-- Counting invariant: the two counters of `dockerPush` agree with the
layer map. -/
def InvCnt (s : PushState) : Prop :=
  s.totalLayers = s.layers.length ∧ s.completedLayers = countCompleted s.layers

/-- Size invariant of one layer: non-negative current bytes, and current
bounded by total whenever a positive total is known. -/
def layerSized (l : LayerProgress) : Prop :=
  0 ≤ orZero l.current ∧ (totGt0 l.total = true → orZero l.current ≤ orZero l.total)

/-- Size invariant of the whole map. -/
def InvSz (s : PushState) : Prop := ∀ kv ∈ s.layers, layerSized kv.2

/-- A line is well-sized when, if it is recognized as a `Pushing` progress
line, its reported current size does not exceed its reported total size. -/
def lineSizedB (l : Str) : Bool :=
  match searchPos pushingAt l with
  | some m => decide (orZero (curBytes m) ≤ orZero (totBytes m))
  | none => true

theorem fracVal_nonneg (ds : Str) : 0 ≤ fracVal ds := by
  unfold fracVal
  positivity

theorem parseFloatQ_nonneg (tok : Str) : 0 ≤ orZero (parseFloatQ tok) := by
  unfold parseFloatQ
  split
  · split
    · simp [orZero]
    · simpa [orZero] using fracVal_nonneg _
  · simp [orZero]
  · simp only [orZero]
    exact add_nonneg (by positivity) (fracVal_nonneg _)
  · simp only [orZero]
    positivity

theorem unitMult_nonneg (u : Str) : 0 ≤ unitMult u := by
  unfold unitMult
  split <;> try norm_num
  split <;> try norm_num
  split <;> try norm_num
  split <;> norm_num

theorem convertToBytes_nonneg (x : Option ℚ) (u : Str) (hx : 0 ≤ orZero x) :
    0 ≤ orZero (convertToBytes x u) := by
  cases x with
  | none => simp [convertToBytes, orZero]
  | some q =>
      simp only [convertToBytes, Option.map_some', orZero] at *
      exact mul_nonneg hx (unitMult_nonneg u)

theorem curBytes_nonneg (m : PushingMatch) : 0 ≤ orZero (curBytes m) :=
  convertToBytes_nonneg _ _ (parseFloatQ_nonneg _)

theorem totBytes_nonneg (m : PushingMatch) : 0 ≤ orZero (totBytes m) :=
  convertToBytes_nonneg _ _ (parseFloatQ_nonneg _)

/-! ## Preservation of the counting invariant -/

theorem invCnt_stepPreparing (s : PushState) (l : Str) (h : InvCnt s) :
    InvCnt (stepPreparing s l) := by
  unfold stepPreparing
  split
  · exact h
  · split
    · exact h
    · rename_i id12 hm hg
      obtain ⟨h1, h2⟩ := h
      constructor
      · simp only [getLayer_none_setLayer _ hg, List.length_append, h1, List.length_singleton]
      · simp only [getLayer_none_setLayer _ hg, countCompleted_append, h2]
        simp

theorem invCnt_stepPushing (s : PushState) (l : Str) (h : InvCnt s) :
    InvCnt (stepPushing s l) := by
  cases hm : searchPos pushingAt l with
  | none => simpa only [stepPushing, hm] using h
  | some m =>
      cases hg : getLayer s.layers m.layerId with
      | none =>
          obtain ⟨h1, h2⟩ := h
          simp only [stepPushing, hm, hg]
          constructor
          · simp [getLayer_none_setLayer _ hg, h1]
          · simp [getLayer_none_setLayer _ hg, countCompleted_append, h2]
      | some l0 =>
          obtain ⟨h1, h2⟩ := h
          simp only [stepPushing, hm, hg]
          have hc := countCompleted_setLayer_some
            (⟨totBytes m, curBytes m, l0.completed, str "pushing"⟩ : LayerProgress) hg
          constructor
          · simp [length_setLayer_some _ hg, h1]
          · simp only at hc ⊢
            omega

theorem invCnt_stepPushed (s : PushState) (l : Str) (h : InvCnt s) :
    InvCnt (stepPushed s l) := by
  cases hm : searchPos pushedAt l with
  | none => simpa only [stepPushed, hm] using h
  | some id12 =>
      cases hg : getLayer s.layers id12 with
      | none =>
          obtain ⟨h1, h2⟩ := h
          simp only [stepPushed, hm, hg]
          constructor
          · simp [getLayer_none_setLayer _ hg, h1]
          · simp [getLayer_none_setLayer _ hg, countCompleted_append, h2]
      | some l0 =>
          obtain ⟨h1, h2⟩ := h
          by_cases hnc : l0.completed
          · simpa only [stepPushed, hm, hg, hnc, if_true] using ⟨h1, h2⟩
          · simp only [Bool.not_eq_true] at hnc
            have hc := countCompleted_setLayer_some
              (⟨l0.total, if totGt0 l0.total then l0.total else l0.current, true,
                str "complete"⟩ : LayerProgress) hg
            simp [hnc] at hc
            simp only [stepPushed, hm, hg, hnc, Bool.false_eq_true, if_false]
            constructor
            · simp [length_setLayer_some _ hg, h1]
            · simp only
              omega

theorem invCnt_stepLine (s : PushState) (l : Str) (h : InvCnt s) : InvCnt (stepLine s l) :=
  invCnt_stepPushed _ _ (invCnt_stepPushing _ _ (invCnt_stepPreparing _ _ h))

theorem invCnt_runLines (s : PushState) (ls : List Str) (h : InvCnt s) :
    InvCnt (runLines s ls) := by
  induction ls generalizing s with
  | nil => exact h
  | cons l rest ih => exact ih _ (invCnt_stepLine s l h)

theorem invCnt_runChunks (s : PushState) (chunks : List Str) (h : InvCnt s) :
    InvCnt (runChunks s chunks) := by
  induction chunks generalizing s with
  | nil => exact h
  | cons c rest ih => exact ih _ (invCnt_runLines _ _ h)

theorem invCnt_initial : InvCnt initialPushState := ⟨rfl, rfl⟩

/-- The two counters never decrease across one processed line, whatever the
state and the line. -/
theorem counters_monotone_stepLine (s : PushState) (l : Str) :
    s.totalLayers ≤ (stepLine s l).totalLayers ∧
      s.completedLayers ≤ (stepLine s l).completedLayers := by
  have mono : ∀ f : PushState → Str → PushState,
      (f = stepPreparing ∨ f = stepPushing ∨ f = stepPushed) →
      ∀ s', s'.totalLayers ≤ (f s' l).totalLayers ∧
        s'.completedLayers ≤ (f s' l).completedLayers := by
    rintro f (rfl | rfl | rfl) s'
    · unfold stepPreparing
      split
      · exact ⟨le_refl _, le_refl _⟩
      · split
        · exact ⟨le_refl _, le_refl _⟩
        · exact ⟨Nat.le_succ _, le_refl _⟩
    · unfold stepPushing
      split
      · exact ⟨le_refl _, le_refl _⟩
      · split
        · exact ⟨Nat.le_succ _, le_refl _⟩
        · exact ⟨le_refl _, le_refl _⟩
    · unfold stepPushed
      split
      · exact ⟨le_refl _, le_refl _⟩
      · split
        · exact ⟨Nat.le_succ _, Nat.le_succ _⟩
        · split
          · exact ⟨le_refl _, le_refl _⟩
          · exact ⟨le_refl _, Nat.le_succ _⟩
  have h1 := mono stepPreparing (Or.inl rfl) s
  have h2 := mono stepPushing (Or.inr (Or.inl rfl)) (stepPreparing s l)
  have h3 := mono stepPushed (Or.inr (Or.inr rfl)) (stepPushing (stepPreparing s l) l)
  exact ⟨le_trans h1.1 (le_trans h2.1 h3.1), le_trans h1.2 (le_trans h2.2 h3.2)⟩

/-! ## Preservation of the size invariant -/

theorem totGt0_pos {x : Option ℚ} (h : totGt0 x = true) : 0 < orZero x := by
  cases x with
  | none => simp [totGt0] at h
  | some q => simpa [totGt0, orZero] using h

theorem invSz_stepPreparing (s : PushState) (l : Str) (h : InvSz s) :
    InvSz (stepPreparing s l) := by
  cases hm : searchPos prepAt l with
  | none => simpa only [stepPreparing, hm] using h
  | some id12 =>
      cases hg : getLayer s.layers id12 with
      | some _ => simpa only [stepPreparing, hm, hg] using h
      | none =>
          simp only [stepPreparing, hm, hg]
          intro kv hkv
          rcases mem_setLayer hkv with hkv' | hkv'

          · subst hkv'
            refine ⟨by simp [orZero], ?_⟩
            intro hT
            simp [totGt0] at hT
          · exact h kv hkv'

theorem invSz_stepPushing (s : PushState) (l : Str) (h : InvSz s)
    (hl : lineSizedB l = true) : InvSz (stepPushing s l) := by
  cases hm : searchPos pushingAt l with
  | none => simpa only [stepPushing, hm] using h
  | some m =>
      have hsz : orZero (curBytes m) ≤ orZero (totBytes m) := by
        unfold lineSizedB at hl
        rw [hm] at hl
        exact of_decide_eq_true hl
      cases hg : getLayer s.layers m.layerId with
      | none =>
          simp only [stepPushing, hm, hg]
          intro kv hkv
          rcases mem_setLayer hkv with hkv' | hkv'
          · subst hkv'
            exact ⟨curBytes_nonneg m, fun _ => hsz⟩
          · exact h kv hkv'
      | some l0 =>
          simp only [stepPushing, hm, hg]
          intro kv hkv
          rcases mem_setLayer hkv with hkv' | hkv'
          · subst hkv'
            exact ⟨curBytes_nonneg m, fun _ => hsz⟩
          · exact h kv hkv'

theorem invSz_stepPushed (s : PushState) (l : Str) (h : InvSz s) :
    InvSz (stepPushed s l) := by
  cases hm : searchPos pushedAt l with
  | none => simpa only [stepPushed, hm] using h
  | some id12 =>
      cases hg : getLayer s.layers id12 with
      | none =>
          simp only [stepPushed, hm, hg]
          intro kv hkv
          rcases mem_setLayer hkv with hkv' | hkv'
          · subst hkv'
            refine ⟨by simp [orZero], ?_⟩
            intro hT
            simp [totGt0] at hT
          · exact h kv hkv'
      | some l0 =>
          have hl0 : layerSized l0 := h _ (getLayer_mem hg)
          by_cases hnc : l0.completed
          · simpa only [stepPushed, hm, hg, hnc, if_true] using h
          · simp only [Bool.not_eq_true] at hnc
            simp only [stepPushed, hm, hg, hnc, Bool.false_eq_true, if_false]
            intro kv hkv
            rcases mem_setLayer hkv with hkv' | hkv'
            · subst hkv'
              by_cases hT : totGt0 l0.total
              · exact ⟨by simpa [hT] using le_of_lt (totGt0_pos hT),
                  fun _ => by simp [hT]⟩
              · simp only [Bool.not_eq_true] at hT
                exact ⟨by simpa [hT, Bool.false_eq_true] using hl0.1,
                  fun hT' => absurd hT' (by simp [hT])⟩
            · exact h kv hkv'

theorem invSz_stepLine (s : PushState) (l : Str) (h : InvSz s)
    (hl : lineSizedB l = true) : InvSz (stepLine s l) :=
  invSz_stepPushed _ _ (invSz_stepPushing _ _ (invSz_stepPreparing _ _ h) hl)

theorem invSz_runLines (s : PushState) (ls : List Str) (h : InvSz s)
    (hl : ∀ l ∈ ls, lineSizedB l = true) : InvSz (runLines s ls) := by
  induction ls generalizing s with
  | nil => exact h
  | cons l rest ih =>
      exact ih _ (invSz_stepLine s l h (hl l (List.mem_cons_self _ _)))
        (fun l' hl' => hl l' (List.mem_cons_of_mem _ hl'))

theorem invSz_initial : InvSz initialPushState := by
  intro kv hkv
  simp [initialPushState] at hkv

/-! ## Bounds on the aggregate percent -/

theorem sums_aux (ls : List (Str × LayerProgress)) :
    ∀ a b : ℚ, (∀ kv ∈ ls, layerSized kv.2) → 0 ≤ b → b ≤ a →
    0 ≤ (ls.foldl
      (fun acc kv =>
        if totGt0 kv.2.total then (acc.1 + orZero kv.2.total, acc.2 + orZero kv.2.current)
        else acc) (a, b)).2 ∧
    (ls.foldl
      (fun acc kv =>
        if totGt0 kv.2.total then (acc.1 + orZero kv.2.total, acc.2 + orZero kv.2.current)
        else acc) (a, b)).2 ≤
    (ls.foldl
      (fun acc kv =>
        if totGt0 kv.2.total then (acc.1 + orZero kv.2.total, acc.2 + orZero kv.2.current)
        else acc) (a, b)).1 := by
  induction ls with
  | nil => intro a b _ hb hab; exact ⟨hb, hab⟩
  | cons kv rest ih =>
      intro a b h hb hab
      have hkv : layerSized kv.2 := h kv (List.mem_cons_self _ _)
      have hrest : ∀ kv' ∈ rest, layerSized kv'.2 :=
        fun kv' h' => h kv' (List.mem_cons_of_mem _ h')
      simp only [List.foldl_cons]
      by_cases hT : totGt0 kv.2.total
      · simp only [hT, if_true]
        exact ih _ _ hrest (add_nonneg hb hkv.1)
          (add_le_add hab (hkv.2 hT))
      · simp only [Bool.not_eq_true] at hT
        simp only [hT, Bool.false_eq_true, if_false]
        exact ih _ _ hrest hb hab

theorem sums_bounds (s : PushState) (h : InvSz s) :
    0 ≤ (sums s).2 ∧ (sums s).2 ≤ (sums s).1 := by
  unfold sums
  exact sums_aux s.layers 0 0 h le_rfl le_rfl

theorem jsRound_bounds {q : ℚ} (h0 : 0 ≤ q) (h100 : q ≤ 100) :
    0 ≤ jsRound q ∧ jsRound q ≤ 100 := by
  constructor
  · exact Int.le_floor.mpr (by push_cast; linarith)
  · have : jsRound q < 101 := Int.floor_lt.mpr (by push_cast; linarith)
    omega

theorem countCompleted_le_length (ls : List (Str × LayerProgress)) :
    countCompleted ls ≤ ls.length :=
  List.length_filter_le _ _

theorem computePercent_bounds (s : PushState) (hcnt : InvCnt s) (hsz : InvSz s) :
    0 ≤ computePercent s ∧ computePercent s ≤ 100 := by
  obtain ⟨hub, hle⟩ := sums_bounds s hsz
  unfold computePercent
  by_cases hT : 0 < (sums s).1
  · simp only [hT, if_true]
    apply jsRound_bounds
    · exact mul_nonneg (div_nonneg hub (le_of_lt hT)) (by norm_num)
    · have h1 : (sums s).2 / (sums s).1 ≤ 1 := (div_le_one hT).mpr hle
      nlinarith
  · simp only [hT, if_false]
    by_cases hN : 0 < s.totalLayers
    · simp only [hN, if_true]
      have hcle : s.completedLayers ≤ s.totalLayers := by
        rw [hcnt.1, hcnt.2]
        exact countCompleted_le_length _
      apply jsRound_bounds
      · positivity
      · have ht : (0 : ℚ) < (s.totalLayers : ℚ) := by exact_mod_cast hN
        have hc : (s.completedLayers : ℚ) ≤ (s.totalLayers : ℚ) := by exact_mod_cast hcle
        have h1 : (s.completedLayers : ℚ) / (s.totalLayers : ℚ) ≤ 1 := (div_le_one ht).mpr hc
        nlinarith
    · simp only [hN, if_false]
      norm_num [jsRound]

/-! ## Bounds on the emitted progress events -/

/-- All lines of a chunk sequence, in processing order. -/
def allLines (chunks : List Str) : List Str := (chunks.map splitLines).flatten

theorem allLines_cons (c : Str) (cs : List Str) :
    allLines (c :: cs) = splitLines c ++ allLines cs := by
  simp [allLines]

theorem mem_lineEmit {s : PushState} {e : ProgressEvent} (h : e ∈ lineEmit s) :
    e = (computePercent s, s.completedLayers, s.totalLayers) ∧ 0 < s.totalLayers := by
  unfold lineEmit at h
  by_cases hN : 0 < s.totalLayers
  · simp only [hN, if_true, List.mem_singleton] at h
    exact ⟨h, hN⟩
  · simp [hN] at h

theorem traceLines_percent_bounds (ls : List Str) :
    ∀ s : PushState, InvCnt s → InvSz s → (∀ l ∈ ls, lineSizedB l = true) →
    ∀ e ∈ traceLines s ls, 0 ≤ e.1 ∧ e.1 ≤ 100 := by
  induction ls with
  | nil =>
      intro s _ _ _ e he
      simp [traceLines] at he
  | cons l rest ih =>
      intro s hcnt hsz hls e he
      have hl : lineSizedB l = true := hls l (List.mem_cons_self _ _)
      have hcnt' := invCnt_stepLine s l hcnt
      have hsz' := invSz_stepLine s l hsz hl
      simp only [traceLines, List.mem_append] at he
      rcases he with he | he
      · obtain ⟨he', _⟩ := mem_lineEmit he
        subst he'
        exact computePercent_bounds _ hcnt' hsz'
      · exact ih _ hcnt' hsz' (fun l' h' => hls l' (List.mem_cons_of_mem _ h')) e he

theorem traceChunks_percent_bounds (chunks : List Str) :
    ∀ s : PushState, InvCnt s → InvSz s → (∀ l ∈ allLines chunks, lineSizedB l = true) →
    ∀ e ∈ traceChunks s chunks, 0 ≤ e.1 ∧ e.1 ≤ 100 := by
  induction chunks with
  | nil =>
      intro s _ _ _ e he
      simp [traceChunks] at he
  | cons c cs ih =>
      intro s hcnt hsz hls e he
      rw [allLines_cons] at hls
      have hlc : ∀ l ∈ splitLines c, lineSizedB l = true :=
        fun l h' => hls l (List.mem_append_left _ h')
      simp only [traceChunks, List.mem_append] at he
      rcases he with he | he
      · exact traceLines_percent_bounds _ s hcnt hsz hlc e he
      · exact ih _ (invCnt_runLines _ _ hcnt) (invSz_runLines _ _ hsz hlc)
          (fun l h' => hls l (List.mem_append_right _ h')) e he

theorem traceLines_counter_bounds (ls : List Str) :
    ∀ s : PushState, InvCnt s → ∀ e ∈ traceLines s ls, e.2.1 ≤ e.2.2 ∧ 1 ≤ e.2.2 := by
  induction ls with
  | nil =>
      intro s _ e he
      simp [traceLines] at he
  | cons l rest ih =>
      intro s hcnt e he
      have hcnt' := invCnt_stepLine s l hcnt
      simp only [traceLines, List.mem_append] at he
      rcases he with he | he
      · obtain ⟨he', hN⟩ := mem_lineEmit he
        subst he'
        refine ⟨?_, hN⟩
        rw [hcnt'.1, hcnt'.2]
        exact countCompleted_le_length _
      · exact ih _ hcnt' e he

theorem traceChunks_counter_bounds (chunks : List Str) :
    ∀ s : PushState, InvCnt s → ∀ e ∈ traceChunks s chunks, e.2.1 ≤ e.2.2 ∧ 1 ≤ e.2.2 := by
  induction chunks with
  | nil =>
      intro s _ e he
      simp [traceChunks] at he
  | cons c cs ih =>
      intro s hcnt e he
      simp only [traceChunks, List.mem_append] at he
      rcases he with he | he
      · exact traceLines_counter_bounds _ s hcnt e he
      · exact ih _ (invCnt_runLines _ _ hcnt) e he

/-! ## Claim theorems: percent bounds and counter invariants -/

/-- C2 (amended): every `overallPercent` emitted by the push progress
parser is an integer, and it lies in the closed interval `[0, 100]`
provided every recognized `Pushing` progress line reports a current size
that does not exceed its reported total size; the claim's unrestricted
form fails (see the counterexample) because a `Pushing` line with
current > total yields a percent above 100. -/
theorem c2_percent_bounds (chunks : List Str)
    (h : ∀ l ∈ allLines chunks, lineSizedB l = true) :
    ∀ e ∈ traceChunks initialPushState chunks, 0 ≤ e.1 ∧ e.1 ≤ 100 :=
  traceChunks_percent_bounds chunks initialPushState invCnt_initial invSz_initial h

/-- Witness for C2: the single well-sized chunk
"ab12ab12ab12: Pushing [=>] 10MB/50MB\n" emits the event (20, 0, 1),
whose percent lies in bounds. -/
theorem c2_percent_bounds_witness : 0 ≤ ((20 : ℤ), 0, 1).1 ∧ ((20 : ℤ), 0, 1).1 ≤ 100 :=
  c2_percent_bounds [str "ab12ab12ab12: Pushing [=>] 10MB/50MB\n"] (by decide)
    ((20 : ℤ), 0, 1) (by decide)

/-- Counterexample for C2 as frozen: the malformed progress line
"ab12ab12ab12: Pushing [=>] 60MB/50MB" (current exceeds total) makes
the parser emit `overallPercent = 120 > 100`. -/
theorem c2_percent_counterexample :
    (traceChunks initialPushState [str "ab12ab12ab12: Pushing [=>] 60MB/50MB\n"]).map
        Prod.fst = [120, 120] ∧ ¬((120 : ℤ) ≤ 100) := by
  constructor
  · decide
  · decide

/-- C10: the counters of the push session are monotone — no line ever
decrements `totalLayers` or `completedLayers` — and from the initial state
`completedLayers ≤ totalLayers` always holds; every progress triple
emitted during line processing has `completed ≤ total` and `total ≥ 1`. -/
theorem c10_counter_invariant :
    (∀ (s : PushState) (l : Str),
        s.totalLayers ≤ (stepLine s l).totalLayers ∧
          s.completedLayers ≤ (stepLine s l).completedLayers) ∧
    (∀ chunks : List Str,
        (runChunks initialPushState chunks).completedLayers ≤
          (runChunks initialPushState chunks).totalLayers) ∧
    (∀ chunks : List Str, ∀ e ∈ traceChunks initialPushState chunks,
        e.2.1 ≤ e.2.2 ∧ 1 ≤ e.2.2) := by
  refine ⟨counters_monotone_stepLine, fun chunks => ?_, fun chunks =>
    traceChunks_counter_bounds chunks initialPushState invCnt_initial⟩
  have h := invCnt_runChunks initialPushState chunks invCnt_initial
  rw [h.1, h.2]
  exact countCompleted_le_length _

/-- Witness for C10: a concrete emitted triple (100, 1, 1) of the single
chunk "ab12ab12ab12: Pushed\n" satisfies the bounds, and the counters do
not decrease across a concrete line. -/
theorem c10_counter_invariant_witness :
    ((100 : ℤ), 1, 1).2.1 ≤ ((100 : ℤ), 1, 1).2.2 ∧ 1 ≤ ((100 : ℤ), 1, 1).2.2 :=
  c10_counter_invariant.2.2 [str "ab12ab12ab12: Pushed\n"] ((100 : ℤ), 1, 1) (by decide)

/-! ## Claim theorems: the completed-layer invariant (C3) -/

theorem completed_persists_stepPreparing (s : PushState) (l : Str) (id : Str)
    {L : LayerProgress} (hL : getLayer s.layers id = some L) (hc : L.completed = true) :
    ∃ L', getLayer (stepPreparing s l).layers id = some L' ∧ L'.completed = true := by
  cases hm : searchPos prepAt l with
  | none => exact ⟨L, by simpa [stepPreparing, hm] using hL, hc⟩
  | some id12 =>
      cases hg : getLayer s.layers id12 with
      | some _ => exact ⟨L, by simpa [stepPreparing, hm, hg] using hL, hc⟩
      | none =>
          have hne : id ≠ id12 := by
            intro hh
            rw [hh, hg] at hL
            exact Option.noConfusion hL
          refine ⟨L, ?_, hc⟩
          simp only [stepPreparing, hm, hg]
          rwa [getLayer_setLayer_ne _ _ hne]

theorem completed_persists_stepPushing (s : PushState) (l : Str) (id : Str)
    {L : LayerProgress} (hL : getLayer s.layers id = some L) (hc : L.completed = true) :
    ∃ L', getLayer (stepPushing s l).layers id = some L' ∧ L'.completed = true := by
  cases hm : searchPos pushingAt l with
  | none => exact ⟨L, by simpa [stepPushing, hm] using hL, hc⟩
  | some m =>
      cases hg : getLayer s.layers m.layerId with
      | none =>
          have hne : id ≠ m.layerId := by
            intro hh
            rw [hh, hg] at hL
            exact Option.noConfusion hL
          refine ⟨L, ?_, hc⟩
          simp only [stepPushing, hm, hg]
          rwa [getLayer_setLayer_ne _ _ hne]
      | some l0 =>
          by_cases hid : id = m.layerId
          · subst hid
            have hl0 : l0 = L := by
              rw [hg] at hL
              exact Option.some.inj hL
            subst hl0
            refine ⟨⟨totBytes m, curBytes m, l0.completed, str "pushing"⟩, ?_, hc⟩
            simp only [stepPushing, hm, hg]
            exact getLayer_setLayer_self _ _ _
          · refine ⟨L, ?_, hc⟩
            simp only [stepPushing, hm, hg]
            rwa [getLayer_setLayer_ne _ _ hid]

theorem completed_persists_stepPushed (s : PushState) (l : Str) (id : Str)
    {L : LayerProgress} (hL : getLayer s.layers id = some L) (hc : L.completed = true) :
    ∃ L', getLayer (stepPushed s l).layers id = some L' ∧ L'.completed = true := by
  cases hm : searchPos pushedAt l with
  | none => exact ⟨L, by simpa [stepPushed, hm] using hL, hc⟩
  | some id12 =>
      cases hg : getLayer s.layers id12 with
      | none =>
          have hne : id ≠ id12 := by
            intro hh
            rw [hh, hg] at hL
            exact Option.noConfusion hL
          refine ⟨L, ?_, hc⟩
          simp only [stepPushed, hm, hg]
          rwa [getLayer_setLayer_ne _ _ hne]
      | some l0 =>
          by_cases hnc : l0.completed
          · exact ⟨L, by simpa [stepPushed, hm, hg, hnc] using hL, hc⟩
          · simp only [Bool.not_eq_true] at hnc
            have hne : id ≠ id12 := by
              intro hh
              subst hh
              rw [hg] at hL
              have : l0 = L := Option.some.inj hL
              rw [this, hc] at hnc
              exact Bool.noConfusion hnc
            refine ⟨L, ?_, hc⟩
            simp only [stepPushed, hm, hg, hnc, Bool.false_eq_true, if_false]
            rwa [getLayer_setLayer_ne _ _ hne]

theorem completed_persists_stepLine (s : PushState) (l : Str) (id : Str)
    {L : LayerProgress} (hL : getLayer s.layers id = some L) (hc : L.completed = true) :
    ∃ L', getLayer (stepLine s l).layers id = some L' ∧ L'.completed = true := by
  obtain ⟨L1, h1, hc1⟩ := completed_persists_stepPreparing s l id hL hc
  obtain ⟨L2, h2, hc2⟩ := completed_persists_stepPushing _ l id h1 hc1
  exact completed_persists_stepPushed _ l id h2 hc2

theorem layer_persists_stepLine (s : PushState) (l : Str) (id : Str)
    (h : (getLayer s.layers id).isSome) : (getLayer (stepLine s l).layers id).isSome := by
  have step : ∀ f : PushState → Str → PushState,
      (f = stepPreparing ∨ f = stepPushing ∨ f = stepPushed) →
      ∀ s' : PushState, (getLayer s'.layers id).isSome →
        (getLayer (f s' l).layers id).isSome := by
    rintro f (rfl | rfl | rfl) s' h'
    · cases hm : searchPos prepAt l with
      | none => simpa [stepPreparing, hm] using h'
      | some id12 =>
          cases hg : getLayer s'.layers id12 with
          | some _ => simpa [stepPreparing, hm, hg] using h'
          | none =>
              simp only [stepPreparing, hm, hg]
              exact getLayer_isSome_setLayer _ _ _ _ h'
    · cases hm : searchPos pushingAt l with
      | none => simpa [stepPushing, hm] using h'
      | some m =>
          cases hg : getLayer s'.layers m.layerId with
          | none =>
              simp only [stepPushing, hm, hg]
              exact getLayer_isSome_setLayer _ _ _ _ h'
          | some l0 =>
              simp only [stepPushing, hm, hg]
              exact getLayer_isSome_setLayer _ _ _ _ h'
    · cases hm : searchPos pushedAt l with
      | none => simpa [stepPushed, hm] using h'
      | some id12 =>
          cases hg : getLayer s'.layers id12 with
          | none =>
              simp only [stepPushed, hm, hg]
              exact getLayer_isSome_setLayer _ _ _ _ h'
          | some l0 =>
              by_cases hnc : l0.completed
              · simpa [stepPushed, hm, hg, hnc] using h'
              · simp only [Bool.not_eq_true] at hnc
                simp only [stepPushed, hm, hg, hnc, Bool.false_eq_true, if_false]
                exact getLayer_isSome_setLayer _ _ _ _ h'
  exact step stepPushed (Or.inr (Or.inr rfl)) _
    (step stepPushing (Or.inr (Or.inl rfl)) _
      (step stepPreparing (Or.inl rfl) _ h))

/-- C3 (amended): the `completed` flag of a layer is monotone — once an
entry has `completed = true` no later line resets it to `false`; layers
are never removed from the layer map; and `completedLayers` always equals
the number of completed entries, so each layer is counted as completed
exactly once.  The claim's further conjunct — that a completed layer with
`totalBytes > 0` always has `currentBytes = totalBytes` — fails (see the
counterexample): a later `Pushing` line overwrites `currentBytes`,
`totalBytes` and `status` of a completed layer. -/
theorem c3_completed_monotone :
    (∀ (s : PushState) (l : Str) (id : Str) (L : LayerProgress),
        getLayer s.layers id = some L → L.completed = true →
        ∃ L', getLayer (stepLine s l).layers id = some L' ∧ L'.completed = true) ∧
    (∀ (s : PushState) (l : Str) (id : Str),
        (getLayer s.layers id).isSome → (getLayer (stepLine s l).layers id).isSome) ∧
    (∀ lines : List Str,
        (runLines initialPushState lines).completedLayers =
          countCompleted (runLines initialPushState lines).layers) :=
  ⟨fun s l id _ hL hc => completed_persists_stepLine s l id hL hc,
   layer_persists_stepLine,
   fun lines => (invCnt_runLines initialPushState lines invCnt_initial).2⟩

/-- Witness for C3: the layer completed by "ab12ab12ab12: Pushed" stays
completed across a further processed line. -/
theorem c3_completed_monotone_witness :
    ∃ L', getLayer (stepLine (runLines initialPushState [str "ab12ab12ab12: Pushed"])
        (str "ab12ab12ab12: Preparing")).layers (str "ab12ab12ab12") = some L' ∧
      L'.completed = true :=
  c3_completed_monotone.1 (runLines initialPushState [str "ab12ab12ab12: Pushed"])
    (str "ab12ab12ab12: Preparing") (str "ab12ab12ab12")
    ⟨some 0, some 0, true, str "complete"⟩ (by decide) rfl

/-- Counterexample for C3 as frozen: after "ab12ab12ab12: Pushed" the
layer is completed with `totalBytes = 0`; the later line
"ab12ab12ab12: Pushing [=>] 10MB/50MB" leaves `completed = true` but sets
`totalBytes = 52428800 > 0` with `currentBytes = 10485760 ≠ totalBytes`
and `status = "pushing"` — contradicting the claimed invariant that a
completed layer with positive total always has `currentBytes = totalBytes`. -/
theorem c3_completed_counterexample :
    getLayer (runLines initialPushState
        [str "ab12ab12ab12: Pushed", str "ab12ab12ab12: Pushing [=>] 10MB/50MB"]).layers
        (str "ab12ab12ab12") =
      some ⟨some 52428800, some 10485760, true, str "pushing"⟩ ∧
    ((10485760 : ℚ) ≠ (52428800 : ℚ)) := by
  constructor
  · decide
  · decide

/-! ## Chunking: line-aligned boundaries are invariant (C1) -/

/-- Concatenation of a group of lines, each terminated by a newline: one
chunk whose boundaries fall on line boundaries. -/
def joinLines (g : List Str) : Str := g.foldr (fun l acc => l ++ '\n' :: acc) []

theorem splitLines_append_newline {l : Str} (rest : Str) (h : '\n' ∉ l) :
    splitLines (l ++ '\n' :: rest) = l :: splitLines rest := by
  induction l with
  | nil => simp [splitLines]
  | cons c cs ih =>
      have hc : ¬(c = '\n') := fun hh => h (hh ▸ List.mem_cons_self _ _)
      have hcs : '\n' ∉ cs := fun hh => h (List.mem_cons_of_mem _ hh)
      simp only [List.cons_append, splitLines, hc, if_false, List.append_eq, ih hcs]

theorem splitLines_joinLines {g : List Str} (h : ∀ l ∈ g, '\n' ∉ l) :
    splitLines (joinLines g) = g ++ [[]] := by
  induction g with
  | nil => simp [joinLines, splitLines]
  | cons l rest ih =>
      have hl : '\n' ∉ l := h l (List.mem_cons_self _ _)
      have hrest : ∀ l' ∈ rest, '\n' ∉ l' := fun l' h' => h l' (List.mem_cons_of_mem _ h')
      simp only [joinLines, List.foldr_cons]
      rw [splitLines_append_newline _ hl]
      simp [joinLines] at ih
      rw [ih hrest]
      simp

theorem stepLine_nil (s : PushState) : stepLine s [] = s := rfl

theorem runLines_append (s : PushState) (ls1 ls2 : List Str) :
    runLines s (ls1 ++ ls2) = runLines (runLines s ls1) ls2 :=
  List.foldl_append _ _ _ _

theorem runChunk_joinLines (s : PushState) {g : List Str} (h : ∀ l ∈ g, '\n' ∉ l) :
    runChunk s (joinLines g) = runLines s g := by
  unfold runChunk
  rw [splitLines_joinLines h, runLines_append]
  rfl

/-- C1 (amended): feeding the push output to the stdout handler in chunks
whose boundaries fall on line boundaries (each chunk is a block of
newline-terminated lines) yields the same final push state — the same
layer map, `totalLayers` and `completedLayers` — as feeding the whole
output as a single chunk.  The frozen claim's stronger form — invariance
under arbitrary boundaries, including mid-line — is false (see the
counterexample): the handler calls split on each chunk separately and
keeps no line buffer, so a line cut across two chunks is matched as two
fragments. -/
theorem c1_chunking_line_aligned (groups : List (List Str))
    (h : ∀ l ∈ groups.flatten, '\n' ∉ l) :
    runChunks initialPushState (groups.map joinLines) =
      runChunk initialPushState (joinLines groups.flatten) := by
  have main : ∀ (gs : List (List Str)) (s : PushState), (∀ l ∈ gs.flatten, '\n' ∉ l) →
      runChunks s (gs.map joinLines) = runLines s gs.flatten := by
    intro gs
    induction gs with
    | nil => intro s _; rfl
    | cons g rest ih =>
        intro s hgs
        have hg : ∀ l ∈ g, '\n' ∉ l := by
          intro l hl
          refine hgs l ?_
          simp only [List.flatten_cons, List.mem_append]
          exact Or.inl hl
        have hrest : ∀ l ∈ rest.flatten, '\n' ∉ l := by
          intro l hl
          refine hgs l ?_
          simp only [List.flatten_cons, List.mem_append]
          exact Or.inr hl
        show runChunks (runChunk s (joinLines g)) (rest.map joinLines) = _
        rw [runChunk_joinLines s hg, ih _ hrest]
        simp only [List.flatten_cons]
        rw [runLines_append]
  rw [main groups initialPushState h, runChunk_joinLines initialPushState h]

/-- Witness for C1: splitting two layer lines into two line-aligned chunks
gives the same state as the whole text at once. -/
theorem c1_chunking_line_aligned_witness :
    runChunks initialPushState
        [joinLines [str "ab12ab12ab12: Preparing"], joinLines [str "ab12ab12ab12: Pushed"]] =
      runChunk initialPushState
        (joinLines [str "ab12ab12ab12: Preparing", str "ab12ab12ab12: Pushed"]) :=
  c1_chunking_line_aligned [[str "ab12ab12ab12: Preparing"], [str "ab12ab12ab12: Pushed"]]
    (by decide)

/-- Counterexample for C1 as frozen: the text "ab12ab12ab12: Pushed" fed
whole registers one completed layer, but fed as the two chunks
"ab12ab12ab12" and ": Pushed" — a boundary in the middle of the line — it
registers nothing, because the two fragments are pattern-matched
separately and no line buffer reassembles them. -/
theorem c1_chunking_counterexample :
    str "ab12ab12ab12" ++ str ": Pushed" = str "ab12ab12ab12: Pushed" ∧
    (runChunks initialPushState [str "ab12ab12ab12", str ": Pushed"]).totalLayers = 0 ∧
    (runChunks initialPushState [str "ab12ab12ab12: Pushed"]).totalLayers = 1 := by
  refine ⟨by decide, by decide, by decide⟩

/-! ## A layer discovered only via a terminal line (C4) -/

/-- C4 (amended): a layer discovered only via a terminal line is counted,
provided the id has the 12-hex-character shape the parser's patterns
require: feeding the single line "abc123abc123: Pushed" with no prior
Preparing/Pushing line yields `totalLayers = 1` and `completedLayers = 1`,
the layer being created directly in the completed state with
`total = 0` and `current = 0`.  The frozen claim's literal input
"abc123: Pushed" uses a 6-character id, which matches none of the
patterns, so it yields `totalLayers = 0` (see the counterexample). -/
theorem c4_terminal_discovery :
    (runChunk initialPushState (str "abc123abc123: Pushed")).totalLayers = 1 ∧
    (runChunk initialPushState (str "abc123abc123: Pushed")).completedLayers = 1 ∧
    getLayer (runChunk initialPushState (str "abc123abc123: Pushed")).layers
        (str "abc123abc123") = some ⟨some 0, some 0, true, str "complete"⟩ := by
  refine ⟨by decide, by decide, by decide⟩

/-- Counterexample for C4 as frozen: the exact claimed input
"abc123: Pushed" (6-character id) registers no layer at all — the
terminal-line regex requires exactly twelve hex characters before the
colon — so `totalLayers` and `completedLayers` are 0, not 1. -/
theorem c4_terminal_counterexample :
    ¬((runChunk initialPushState (str "abc123: Pushed")).totalLayers = 1 ∧
      (runChunk initialPushState (str "abc123: Pushed")).completedLayers = 1) := by
  decide

/-! ## Terminal forcing on clean exit (C5) -/

/-- C5: for every push run whose subprocess exits with code 0 after at
least one layer was discovered, the final progress event handed to the
caller is exactly `(100, totalLayers, totalLayers)`, regardless of the
last percent computed from line parsing. -/
theorem c5_terminal_forcing (r : PushRun) (h0 : r.exitCode = 0)
    (hT : 0 < (runChunks initialPushState r.stdoutChunks).totalLayers) :
    (dockerPushModel r).2.getLast? =
      some (100, (runChunks initialPushState r.stdoutChunks).totalLayers,
        (runChunks initialPushState r.stdoutChunks).totalLayers) := by
  unfold dockerPushModel
  simp only [h0, if_true, hT, if_pos]
  exact List.getLast?_concat _

/-- Witness for C5: a run whose only parsed line computes 20 percent
(10MB of 50MB, no completed layer) still ends, on exit code 0, with the
forced event (100, 1, 1). -/
theorem c5_terminal_forcing_witness :
    (dockerPushModel ⟨[str "ab12ab12ab12: Pushing [=>] 10MB/50MB\n"], [], 0⟩).2.getLast? =
      some (100, 1, 1) := by
  have h := c5_terminal_forcing ⟨[str "ab12ab12ab12: Pushing [=>] 10MB/50MB\n"], [], 0⟩
    rfl (by decide)
  have hT : (runChunks initialPushState
      [str "ab12ab12ab12: Pushing [=>] 10MB/50MB\n"]).totalLayers = 1 := by decide
  rw [hT] at h
  exact h

/-! ## Registry login retry semantics (C6) -/

/-- C6: with `retries = 3` and the first two attempts failing, the loop
performs exactly 3 attempts, waiting 1s after the first failure and 2s
after the second (the backoff doubles and is capped at 5s by
`backoffDelay`); a third successful attempt resolves with its output,
while a third failure surfaces exactly the last attempt's error.  An
attempt whose 60-second timer fires is a failed attempt carrying the
timeout message. -/
theorem c6_login_retry (o : ℕ → AttemptOutcome) (e1 e2 : Str)
    (h1 : attemptError (o 1) = some e1) (h2 : attemptError (o 2) = some e2) :
    (∀ out : Str, o 3 = AttemptOutcome.success out →
        dockerLoginModel o 3 = ⟨3, [1000, 2000], Except.ok out⟩) ∧
    (∀ e3 : Str, attemptError (o 3) = some e3 →
        dockerLoginModel o 3 = ⟨3, [1000, 2000], Except.error e3⟩) ∧
    attemptError AttemptOutcome.timedOut =
      some (str "Docker login timed out after 60 seconds") := by
  refine ⟨?_, ?_, by decide⟩
  · intro out hout
    have h3 : attemptError (o 3) = none := by rw [hout]; rfl
    unfold dockerLoginModel
    show loginAux o 1 (1 + 2) = _
    simp only [loginAux, h1, h2, h3, hout]
    norm_num [backoffDelay, attemptOutput, attemptError]
  · intro e3 h3err
    unfold dockerLoginModel
    show loginAux o 1 (1 + 2) = _
    simp only [loginAux, h1, h2, h3err]
    norm_num [backoffDelay]

/-- Witness for C6: two concrete failures then a success — exactly three
attempts, waits of 1000 ms and 2000 ms, and a successful result. -/
theorem c6_login_retry_witness :
    dockerLoginModel
        (fun n => if n ≤ 2 then AttemptOutcome.failure (str "x")
          else AttemptOutcome.success (str "ok")) 3 =
      ⟨3, [1000, 2000], Except.ok (str "ok")⟩ :=
  (c6_login_retry
      (fun n => if n ≤ 2 then AttemptOutcome.failure (str "x")
        else AttemptOutcome.success (str "ok"))
      (str "Docker login failed: x") (str "Docker login failed: x")
      (by decide) (by decide)).1 (str "ok") (by decide)

/-! ## The stall watchdog (C7) -/

theorem watch_outcome_persist (evs : List PushEvent) :
    ∀ (s : WatchState) (o : WatchOutcome), s.outcome = some o →
      (foldWatch s evs).outcome = some o := by
  induction evs with
  | nil => intro s o h; exact h
  | cons e rest ih =>
      intro s o h
      refine ih (stepWatch s e) o ?_
      cases e with
      | out t => simpa [stepWatch]
      | tick t =>
          simp only [stepWatch]
          split
          · simp [h]
          · exact h
      | exited code t => simp [stepWatch, h]

theorem watch_killed_persist (evs : List PushEvent) :
    ∀ s : WatchState, s.killed = true → (foldWatch s evs).killed = true := by
  induction evs with
  | nil => intro s h; exact h
  | cons e rest ih =>
      intro s h
      refine ih (stepWatch s e) ?_
      cases e with
      | out t => simpa [stepWatch]
      | tick t =>
          simp only [stepWatch]
          split
          · simp
          · exact h
      | exited code t => simpa [stepWatch]

theorem watch_inactive_frozen (evs : List PushEvent) :
    ∀ s : WatchState, s.intervalActive = false → (∀ e ∈ evs, isExitEvent e = false) →
      (foldWatch s evs).outcome = s.outcome ∧ (foldWatch s evs).killed = s.killed ∧
        (foldWatch s evs).intervalActive = false := by
  induction evs with
  | nil => intro s hA _; exact ⟨rfl, rfl, hA⟩
  | cons e rest ih =>
      intro s hA hrest
      have hstep : (stepWatch s e).outcome = s.outcome ∧ (stepWatch s e).killed = s.killed ∧
          (stepWatch s e).intervalActive = false := by
        cases e with
        | out t => exact ⟨rfl, rfl, hA⟩
        | tick t =>
            simp only [stepWatch, hA]
            simp
            exact hA
        | exited code t =>
            have := hrest (PushEvent.exited code t) (List.mem_cons_self _ _)
            simp [isExitEvent] at this
      have hrest' : ∀ e' ∈ rest, isExitEvent e' = false :=
        fun e' h' => hrest e' (List.mem_cons_of_mem _ h')
      obtain ⟨ho, hk, hA'⟩ := ih (stepWatch s e) hstep.2.2 hrest'
      exact ⟨ho.trans hstep.1, hk.trans hstep.2.1, hA'⟩

/-- C7 (modelled as a discrete event trace): if, while the interval timer
is armed and the push promise unsettled, a watchdog tick observes more
than the ten-minute window elapsed since the last output event, the push
subprocess is killed and the promise rejects with the stall-timeout error,
and every later event leaves that outcome in place; conversely a process
exit disarms the interval, after which (absent further exit events) no
tick can change the outcome or kill the process — the timer never fires
after completion. -/
theorem c7_stall_watchdog :
    (∀ (s : WatchState) (t : ℕ) (rest : List PushEvent),
        s.intervalActive = true → s.outcome = none → STALL_WINDOW_MS < t - s.lastOutput →
        (foldWatch s (PushEvent.tick t :: rest)).killed = true ∧
        (foldWatch s (PushEvent.tick t :: rest)).outcome = some WatchOutcome.stalled ∧
        watchMsg WatchOutcome.stalled = some stallTimeoutMsg) ∧
    (∀ (s : WatchState) (code : ℤ) (t : ℕ) (rest : List PushEvent),
        (∀ e ∈ rest, isExitEvent e = false) →
        (stepWatch s (PushEvent.exited code t)).intervalActive = false ∧
        (foldWatch s (PushEvent.exited code t :: rest)).outcome =
          (stepWatch s (PushEvent.exited code t)).outcome ∧
        (foldWatch s (PushEvent.exited code t :: rest)).killed =
          (stepWatch s (PushEvent.exited code t)).killed) := by
  constructor
  · intro s t rest hA hO h600
    have hstep : stepWatch s (PushEvent.tick t) =
        { s with intervalActive := false, killed := true,
                 outcome := some WatchOutcome.stalled } := by
      simp only [stepWatch]
      rw [if_pos, hO]
      · simp
      · rw [hA]
        simpa using h600
    have hfold : foldWatch s (PushEvent.tick t :: rest) =
        foldWatch (stepWatch s (PushEvent.tick t)) rest := rfl
    rw [hfold, hstep]
    refine ⟨watch_killed_persist rest _ rfl, watch_outcome_persist rest _ _ rfl, rfl⟩
  · intro s code t rest hrest
    have hA : (stepWatch s (PushEvent.exited code t)).intervalActive = false := rfl
    have hfold : foldWatch s (PushEvent.exited code t :: rest) =
        foldWatch (stepWatch s (PushEvent.exited code t)) rest := rfl
    obtain ⟨ho, hk, _⟩ := watch_inactive_frozen rest _ hA hrest
    exact ⟨hA, by rw [hfold, ho], by rw [hfold, hk]⟩

/-- Witness for C7: from a fresh watchdog with last output at time 0, a
tick at 600001 ms kills the process and rejects with the stall error, and
the outcome survives later events; an exit event disarms the interval. -/
theorem c7_stall_watchdog_witness :
    (foldWatch (initialWatch 0) [PushEvent.tick 600001, PushEvent.out 700000]).killed = true ∧
    (foldWatch (initialWatch 0) [PushEvent.tick 600001, PushEvent.out 700000]).outcome =
      some WatchOutcome.stalled ∧
    watchMsg WatchOutcome.stalled = some stallTimeoutMsg :=
  c7_stall_watchdog.1 (initialWatch 0) 600001 [PushEvent.out 700000] rfl rfl (by decide)

/-! ## Structural validation of the credentials response (C8) -/

/-- C8: when Docker is present and the local image exists, a successful
credentials request whose response lacks a truthy `ecr_url` or a truthy
`repository_uri` makes the deploy abort with exit code 1 right after the
request — no registry login, tag, push or confirm action is ever
performed. -/
theorem c8_invalid_creds_response (env : DeployEnv) (cr : CredsResponse)
    (hD : env.dockerInstalled = true) (hI : env.imageExists = true)
    (hcr : env.credsResponse = some cr)
    (hbad : truthyStr cr.ecr_url = false ∨ truthyStr cr.repository_uri = false) :
    deployModel env =
      ⟨1, [DeployAction.checkDocker, DeployAction.checkImage, DeployAction.requestCreds]⟩ ∧
    DeployAction.loginStep ∉ (deployModel env).actions ∧
    DeployAction.tagStep ∉ (deployModel env).actions ∧
    DeployAction.pushStep ∉ (deployModel env).actions ∧
    DeployAction.confirmStep ∉ (deployModel env).actions := by
  have hmain : deployModel env =
      ⟨1, [DeployAction.checkDocker, DeployAction.checkImage, DeployAction.requestCreds]⟩ := by
    unfold deployModel
    rcases hbad with hb | hb <;> simp [hD, hI, hcr, hb]
  refine ⟨hmain, ?_, ?_, ?_, ?_⟩ <;> rw [hmain] <;> decide

/-- A concrete environment for the C8 witness: the credentials endpoint
answers with only an `ecr_url` and no `repository_uri`. -/
def c8Env : DeployEnv :=
  { dockerInstalled := true
    imageExists := true
    credsResponse := some ⟨some (str "x"), none, none, none, none⟩
    loginOutcomes := fun _ => AttemptOutcome.success []
    tagOk := true
    pushRun := ⟨[], [], 0⟩
    confirmOk := true }

/-- Witness for C8: the `{ecr_url: "x"}`-only response scenario aborts
before touching the registry. -/
theorem c8_invalid_creds_response_witness :
    deployModel c8Env =
      ⟨1, [DeployAction.checkDocker, DeployAction.checkImage, DeployAction.requestCreds]⟩ ∧
    DeployAction.loginStep ∉ (deployModel c8Env).actions ∧
    DeployAction.tagStep ∉ (deployModel c8Env).actions ∧
    DeployAction.pushStep ∉ (deployModel c8Env).actions ∧
    DeployAction.confirmStep ∉ (deployModel c8Env).actions :=
  c8_invalid_creds_response c8Env ⟨some (str "x"), none, none, none, none⟩
    rfl rfl rfl (Or.inr rfl)

/-! ## Push-denied propagation (C9) -/

theorem prefixMatch_append_self (pat b : Str) : prefixMatch pat (pat ++ b) = true := by
  induction pat with
  | nil => rfl
  | cons c cs ih => simp [prefixMatch, ih]

theorem containsSub_of_append (a pat b : Str) :
    containsSub pat (a ++ (pat ++ b)) = true := by
  induction a with
  | nil =>
      cases pat with
      | nil =>
          cases b with
          | nil => rfl
          | cons c t => simp [containsSub, prefixMatch]
      | cons p ps =>
          simp only [List.nil_append, List.cons_append, containsSub, List.append_eq]
          rw [show p :: (ps ++ b) = (p :: ps) ++ b from rfl, prefixMatch_append_self]
          simp
  | cons x a' ih =>
      simp only [List.cons_append, containsSub, List.append_eq, ih, Bool.or_true]

theorem errorCapture_aux (chunks : List Str) (chunk : Str)
    (hflag : hasErrorText chunk = true) :
    ∀ acc : Bool × Str, chunk ∈ chunks →
      (chunks.foldl (fun acc ch => if hasErrorText ch then (true, acc.2 ++ ch) else acc)
          acc).1 = true ∧
      ∃ pre post,
        (chunks.foldl (fun acc ch => if hasErrorText ch then (true, acc.2 ++ ch) else acc)
            acc).2 = pre ++ (chunk ++ post) := by
  induction chunks with
  | nil =>
      intro acc hmem
      simp at hmem
  | cons c cs ih =>
      intro acc hmem
      rw [List.mem_cons] at hmem
      have grow : ∀ acc' : Bool × Str,
          acc'.1 = true →
          (cs.foldl (fun acc ch => if hasErrorText ch then (true, acc.2 ++ ch) else acc)
              acc').1 = true ∧
          ∃ suf,
            (cs.foldl (fun acc ch => if hasErrorText ch then (true, acc.2 ++ ch) else acc)
                acc').2 = acc'.2 ++ suf := by
        clear hmem ih
        induction cs with
        | nil => intro acc' h1; exact ⟨h1, [], by simp⟩
        | cons d ds ihd =>
            intro acc' h1
            simp only [List.foldl_cons]
            by_cases hd : hasErrorText d = true
            · rw [if_pos hd]
              obtain ⟨hf, suf, hsuf⟩ := ihd (true, acc'.2 ++ d) rfl
              refine ⟨hf, d ++ suf, ?_⟩
              rw [hsuf]
              simp
            · rw [if_neg hd]
              exact ihd acc' h1
      rcases hmem with hmem | hmem
      · subst hmem
        simp only [List.foldl_cons]
        rw [if_pos hflag]
        obtain ⟨hf, suf, hsuf⟩ := grow (true, acc.2 ++ chunk) rfl
        refine ⟨hf, acc.2, suf, ?_⟩
        rw [hsuf]
        simp
      · simp only [List.foldl_cons]
        exact ih _ hmem

theorem errorCapture_mem {chunks : List Str} {chunk : Str}
    (hmem : chunk ∈ chunks) (hflag : hasErrorText chunk = true) :
    (errorCapture chunks).1 = true ∧
      ∃ pre post, (errorCapture chunks).2 = pre ++ (chunk ++ post) :=
  errorCapture_aux chunks chunk hflag (false, []) hmem

/-- C9: if some stderr data event of the push contains the
case-insensitive substring "unauthorized" and the subprocess exits with a
nonzero code, `dockerPush` rejects with a message that contains the
captured error-stream text (in particular that whole stderr chunk), the
deploy invocation exits 1, and the confirm endpoint is never called. -/
theorem c9_push_denied (env : DeployEnv) (cr : CredsResponse) (chunk out : Str)
    (hD : env.dockerInstalled = true) (hI : env.imageExists = true)
    (hcr : env.credsResponse = some cr)
    (hurl : truthyStr cr.ecr_url = true) (hrepo : truthyStr cr.repository_uri = true)
    (hlogin : (dockerLoginModel env.loginOutcomes 3).result = Except.ok out)
    (htag : env.tagOk = true)
    (hchunk : chunk ∈ env.pushRun.stderrChunks)
    (hsub : containsSub (str "unauthorized") (toLowerStr chunk) = true)
    (hexit : ¬env.pushRun.exitCode = 0) :
    (∃ m : Str, (dockerPushModel env.pushRun).1 = PushResult.err m ∧
        containsSub chunk m = true) ∧
    (deployModel env).exitCode = 1 ∧
    DeployAction.confirmStep ∉ (deployModel env).actions := by
  have hflag : hasErrorText chunk = true := by
    unfold hasErrorText
    rw [hsub]
    simp
  obtain ⟨hcap1, pre, post, hcap2⟩ := errorCapture_mem hchunk hflag
  have hne : ¬((errorCapture env.pushRun.stderrChunks).2 = []) := by
    rw [hcap2]
    intro hh
    have : chunk = [] := by
      cases pre with
      | nil =>
          cases chunk with
          | nil => rfl
          | cons c t => simp at hh
      | cons c t => simp at hh
    subst this
    simp [str, toLowerStr, containsSub, prefixMatch] at hsub
  have hpush : (dockerPushModel env.pushRun).1 =
      PushResult.err (str "Push failed: " ++ (errorCapture env.pushRun.stderrChunks).2) := by
    unfold dockerPushModel
    rw [if_neg hexit]
    simp only [hcap1, hne, decide_eq_true_eq]
    simp [hne]
  refine ⟨⟨str "Push failed: " ++ (errorCapture env.pushRun.stderrChunks).2, hpush, ?_⟩, ?_⟩
  · rw [hcap2, show str "Push failed: " ++ (pre ++ (chunk ++ post)) =
      (str "Push failed: " ++ pre) ++ (chunk ++ post) from by simp]
    exact containsSub_of_append _ _ _
  · have hdep : deployModel env =
        ⟨1, [DeployAction.checkDocker, DeployAction.checkImage, DeployAction.requestCreds,
             DeployAction.loginStep, DeployAction.tagStep, DeployAction.pushStep]⟩ := by
      unfold deployModel
      rw [hD, hI, hcr]
      simp only [hurl, hrepo, Bool.and_self, Bool.not_true, Bool.false_eq_true, if_false,
        hlogin, htag, hpush]
    rw [hdep]
    exact ⟨rfl, by decide⟩

/-- A concrete environment for the C9 witness: the push subprocess writes
"unauthorized: authentication required" to stderr and exits 1. -/
def c9Env : DeployEnv :=
  { dockerInstalled := true
    imageExists := true
    credsResponse := some ⟨some (str "e"), some (str "u"), some (str "p"),
      some (str "r"), some (str "d")⟩
    loginOutcomes := fun _ => AttemptOutcome.success (str "ok")
    tagOk := true
    pushRun := ⟨[], [str "unauthorized: authentication required"], 1⟩
    confirmOk := true }

/-- Witness for C9: the push-denied scenario — the rejection message
contains the captured stderr text, the deploy exits 1, and the confirm
endpoint is never reached. -/
theorem c9_push_denied_witness :
    (∃ m : Str, (dockerPushModel c9Env.pushRun).1 = PushResult.err m ∧
        containsSub (str "unauthorized: authentication required") m = true) ∧
    (deployModel c9Env).exitCode = 1 ∧
    DeployAction.confirmStep ∉ (deployModel c9Env).actions :=
  c9_push_denied c9Env ⟨some (str "e"), some (str "u"), some (str "p"),
      some (str "r"), some (str "d")⟩
    (str "unauthorized: authentication required") (str "ok")
    rfl rfl rfl rfl rfl (by decide) rfl (by decide) (by decide) (by decide)

end OrcaCli
